import Mathlib

/-!
Verification of the ray-tracer core in `src/main.rs` (rsay-tracing).

The Rust code computes with `f32`; here every `f32` value is embedded as a
real number (`ℝ`), the standard idealized semantics for this numeric
pipeline.  Rust's `f32::sqrt` becomes `Real.sqrt`, and the f32 check
`f32::INFINITY < root`, which is false for every finite float and even for
`root = INFINITY`, has no real-number counterpart and disappears.
The two-variant `Intersection` enum (`Missed` / `Hit(record)`) is embedded
as `Option Hit` (`none` = `Missed`, `some` = `Hit`).
-/

/-- `Vec3` from the source: three float components. -/
structure Vec3 where
  x : ℝ
  y : ℝ
  z : ℝ

namespace Vec3

/-- Componentwise addition (`impl ops::Add for Vec3`). -/
def add (a b : Vec3) : Vec3 := ⟨a.x + b.x, a.y + b.y, a.z + b.z⟩

/-- Componentwise subtraction (`impl ops::Sub for Vec3`). -/
def sub (a b : Vec3) : Vec3 := ⟨a.x - b.x, a.y - b.y, a.z - b.z⟩

/-- Scalar multiplication (`impl ops::Mul<f32> for Vec3`). -/
def mul (a : Vec3) (f : ℝ) : Vec3 := ⟨a.x * f, a.y * f, a.z * f⟩

/-- Scalar division (`impl ops::Div<f32> for Vec3`). -/
noncomputable def div (a : Vec3) (f : ℝ) : Vec3 := ⟨a.x / f, a.y / f, a.z / f⟩

/-- Negation (`impl ops::Neg for Vec3`). -/
def neg (a : Vec3) : Vec3 := ⟨-a.x, -a.y, -a.z⟩

instance : Add Vec3 := ⟨add⟩

instance : Sub Vec3 := ⟨sub⟩

instance : Neg Vec3 := ⟨neg⟩

instance : HMul Vec3 ℝ Vec3 := ⟨mul⟩

noncomputable instance : HDiv Vec3 ℝ Vec3 := ⟨div⟩

/-- `Vec3::dot`. -/
def dot (a b : Vec3) : ℝ := a.x * b.x + a.y * b.y + a.z * b.z

/-- `Vec3::len2`: squared length. -/
def len2 (v : Vec3) : ℝ := v.x * v.x + v.y * v.y + v.z * v.z

/-- `Vec3::len`: `len2().sqrt()`. -/
noncomputable def len (v : Vec3) : ℝ := Real.sqrt v.len2

end Vec3

/-- `Ray` from the source: origin and direction. -/
structure Ray where
  origin : Vec3
  dir : Vec3

/-- `Ray::at`: `origin + dir * t`. -/
def Ray.at (r : Ray) (t : ℝ) : Vec3 := r.origin + r.dir * t

/-- `Sphere` from the source: center and radius. -/
structure Sphere where
  center : Vec3
  radius : ℝ

/-- `Hit` record from the source: parameter `t`, point `p`, `normal`,
front-face flag `front`. -/
structure Hit where
  t : ℝ
  p : Vec3
  normal : Vec3
  front : Bool

/-- Quadratic coefficient `a = ray.dir.dot(ray.dir)` of `Sphere::hit`. -/
def Sphere.aCoeff (_s : Sphere) (ray : Ray) : ℝ := ray.dir.dot ray.dir

/-- `half_b = oc.dot(ray.dir)` of `Sphere::hit`, with `oc = origin - center`. -/
def Sphere.halfB (s : Sphere) (ray : Ray) : ℝ := (ray.origin - s.center).dot ray.dir

/-- `c = oc.dot(oc) - radius * radius` of `Sphere::hit`. -/
def Sphere.cCoeff (s : Sphere) (ray : Ray) : ℝ :=
  (ray.origin - s.center).dot (ray.origin - s.center) - s.radius * s.radius

/-- `discriminant = half_b * half_b - a * c` of `Sphere::hit`. -/
def Sphere.disc (s : Sphere) (ray : Ray) : ℝ :=
  s.halfB ray * s.halfB ray - s.aCoeff ray * s.cCoeff ray

/-- The smaller candidate root `(-half_b - sqrtd) / a` of `Sphere::hit`. -/
noncomputable def Sphere.root1 (s : Sphere) (ray : Ray) : ℝ :=
  (-s.halfB ray - Real.sqrt (s.disc ray)) / s.aCoeff ray

/-- The larger candidate root `(-half_b + sqrtd) / a` of `Sphere::hit`. -/
noncomputable def Sphere.root2 (s : Sphere) (ray : Ray) : ℝ :=
  (-s.halfB ray + Real.sqrt (s.disc ray)) / s.aCoeff ray

/-- The root `Sphere::hit` settles on: the smaller root if it passes the
range check `root < 0.` (the f32 check `INFINITY < root` is never true),
otherwise the larger root. -/
noncomputable def Sphere.chosenRoot (s : Sphere) (ray : Ray) : ℝ :=
  if s.root1 ray < 0 then s.root2 ray else s.root1 ray

/-- `outward_normal = (p - center) / radius` at parameter `root`. -/
noncomputable def Sphere.outwardNormal (s : Sphere) (ray : Ray) (root : ℝ) : Vec3 :=
  (ray.at root - s.center) / s.radius

/-- The record built at the end of `Sphere::hit` for an accepted `root`:
hit point `p = ray.at(root)`, front flag `ray.dir.dot(outward_normal) < 0.`,
and normal equal to the outward normal if `front` else its negation. -/
noncomputable def Sphere.hitRecord (s : Sphere) (ray : Ray) (root : ℝ) : Hit :=
  let outward := s.outwardNormal ray root
  let front : Bool := if ray.dir.dot outward < 0 then true else false
  ⟨root, ray.at root, if front then outward else -outward, front⟩

/-- `Sphere::hit`.  If the discriminant is negative, `Missed` (`none`);
then the smaller root is tried, falling back to the larger one exactly when
the smaller fails the range check (that is `chosenRoot`); if the chosen
root also fails the check, `Missed`; otherwise the hit record at it. -/
noncomputable def Sphere.hit (s : Sphere) (ray : Ray) : Option Hit :=
  if s.disc ray < 0 then none
  else if s.chosenRoot ray < 0 then none
  else some (s.hitRecord ray (s.chosenRoot ray))

/-- `unit_vector`: componentwise division by the length. -/
noncomputable def unit_vector (v : Vec3) : Vec3 :=
  ⟨v.x / v.len, v.y / v.len, v.z / v.len⟩

/-- `random_double(min, max)`: `min + (max - min) * rand` where `rand` is the
raw output of `rand::random::<f32>()`, supplied here explicitly. -/
def random_double (lo hi rand : ℝ) : ℝ := lo + (hi - lo) * rand

/-- `Vec3::random(min, max)`: three independent `random_double` draws, the
raw generator outputs supplied explicitly. -/
def Vec3.random (lo hi r0 r1 r2 : ℝ) : Vec3 :=
  ⟨random_double lo hi r0, random_double lo hi r1, random_double lo hi r2⟩

/-- `random_in_unit_sphere`: rejection-sampling loop.  The process-wide
generator is embedded as the stream `u` of raw `rand::random::<f32>()`
outputs (three consumed per iteration), and the unbounded `loop` as fuel
recursion returning `none` when the fuel runs out before acceptance. -/
noncomputable def random_in_unit_sphere (u : ℕ → ℝ) : ℕ → Option Vec3
  | 0 => none
  | fuel + 1 =>
    let p := Vec3.random (-1) 1 (u 0) (u 1) (u 2)
    if 1 ≤ p.len2 then random_in_unit_sphere (fun n => u (n + 3)) fuel
    else some p

/-- `clip(v, min, max)` from the source. -/
noncomputable def clip (v lo hi : ℝ) : ℝ :=
  if v > hi then hi
  else if v < lo then lo
  else v

/-- The f32 value domain for the tone-mapper: a finite real, `NaN`, or an
infinity.  The rest of the pipeline uses the finite idealization `ℝ`; the
writer is modeled over the full domain because its contract covers
non-finite accumulated channel values. -/
inductive F32 where
  | finite (x : ℝ)
  | nan
  | posInf
  | negInf

/-- The f32 `<` comparison: any comparison involving `NaN` is false, and the
infinities bound every finite value. -/
noncomputable def F32.lt : F32 → F32 → Bool
  | F32.nan, _ => false
  | _, F32.nan => false
  | F32.finite a, F32.finite b => if a < b then true else false
  | F32.finite _, F32.posInf => true
  | F32.finite _, F32.negInf => false
  | F32.posInf, _ => false
  | F32.negInf, F32.negInf => false
  | F32.negInf, _ => true

/-- f32 multiplication by a real scalar: `NaN` propagates, an infinity keeps
or flips sign against a nonzero scalar and gives `NaN` against zero, and
finite values multiply as reals. -/
noncomputable def F32.mulReal : F32 → ℝ → F32
  | F32.finite x, s => F32.finite (x * s)
  | F32.nan, _ => F32.nan
  | F32.posInf, s => if 0 < s then F32.posInf else if s < 0 then F32.negInf else F32.nan
  | F32.negInf, s => if 0 < s then F32.negInf else if s < 0 then F32.posInf else F32.nan

/-- `clip(v, min, max)` from the source over the full f32 domain: the match
guards `c > max` and `c < min` are f32 comparisons, so a `NaN` input falls
through both guards and is returned unchanged. -/
noncomputable def clipF (v lo hi : F32) : F32 :=
  if F32.lt hi v then hi
  else if F32.lt v lo then lo
  else v

/-- Rust's saturating `as i32` cast of an f32: `NaN` to `0`, the infinities
to the extreme `i32` values, a finite value truncated toward zero and
clamped into `[i32::MIN, i32::MAX]`. -/
noncomputable def f32_as_i32 : F32 → ℤ
  | F32.nan => 0
  | F32.posInf => 2147483647
  | F32.negInf => -2147483648
  | F32.finite x => max (-2147483648) (min 2147483647 (if 0 ≤ x then ⌊x⌋ else ⌈x⌉))

/-- One output channel of `write_color`: `(clip(v * scale, 0., 0.999) * 255.)
as i32` with `scale = 1.0 / samples_per_pixel`, over the full f32 domain. -/
noncomputable def write_color_channel (v : F32) (samples_per_pixel : ℤ) : ℤ :=
  f32_as_i32 ((clipF (v.mulReal (1 / (samples_per_pixel : ℝ))) (F32.finite 0)
    (F32.finite 0.999)).mulReal 255)

/-- An accumulated pixel over the full f32 domain, as consumed by the writer. -/
structure Vec3F where
  x : F32
  y : F32
  z : F32

/-- `write_color`: the three integers printed for one accumulated pixel. -/
noncomputable def write_color (p : Vec3F) (samples_per_pixel : ℤ) : ℤ × ℤ × ℤ :=
  (write_color_channel p.x samples_per_pixel,
   write_color_channel p.y samples_per_pixel,
   write_color_channel p.z samples_per_pixel)

/-- The sphere loop of `ray_color`: `tnear` starts at `f32::INFINITY` with no
hit, and each `Hit(h)` with `h.t < tnear` replaces the current best.  The
pair (`tnear`, `hit`) is embedded as `Option Hit` (`none` = no hit yet,
`tnear = ∞`; every real `t` satisfies `t < ∞`). -/
noncomputable def scene_hit_loop (ray : Ray) : List Sphere → Option Hit → Option Hit
  | [], acc => acc
  | s :: rest, acc =>
    match s.hit ray, acc with
    | none, a => scene_hit_loop ray rest a
    | some h, none => scene_hit_loop ray rest (some h)
    | some h, some b =>
      scene_hit_loop ray rest (if h.t < b.t then some h else some b)

/-- The nearest-hit resolution of `ray_color` over the whole scene list. -/
noncomputable def sceneHit (ray : Ray) (objects : List Sphere) : Option Hit :=
  scene_hit_loop ray objects none

/-- `ray_color(ray, objects, depth)`.  The bounce directions drawn by
`random_in_unit_sphere` are supplied as the stream `scat` (one entry per
bounce, shifted on each recursive call), under the hypothesis that every
call to the sampler returns a value. -/
noncomputable def ray_color (scat : ℕ → Vec3) (ray : Ray) (objects : List Sphere)
    (depth : ℤ) : Vec3 :=
  if depth ≤ 0 then ⟨0, 0, 0⟩
  else
    match sceneHit ray objects with
    | some h =>
      let target := h.p + h.normal + scat 0
      ray_color (fun n => scat (n + 1)) ⟨h.p, target - h.p⟩ objects (depth - 1) * (0.5 : ℝ)
    | none =>
      let ud := unit_vector ray.dir
      let t := 0.5 * (ud.y + 1.0)
      Vec3.mk 1 1 1 * (1 - t) + Vec3.mk 0.5 0.7 1 * t
termination_by depth.toNat
decreasing_by omega

/-- Gas-instrumented version of `ray_color`: `gas` counts call frames and
exhaustion yields `none`, so `some` results witness termination of the
recursion. -/
noncomputable def ray_color_gas (scat : ℕ → Vec3) (ray : Ray) (objects : List Sphere)
    (depth : ℤ) : ℕ → Option Vec3
  | 0 => none
  | gas + 1 =>
    if depth ≤ 0 then some ⟨0, 0, 0⟩
    else
      match sceneHit ray objects with
      | some h =>
        let target := h.p + h.normal + scat 0
        (ray_color_gas (fun n => scat (n + 1)) ⟨h.p, target - h.p⟩ objects (depth - 1) gas).map
          (fun c => c * (0.5 : ℝ))
      | none =>
        let ud := unit_vector ray.dir
        let t := 0.5 * (ud.y + 1.0)
        some (Vec3.mk 1 1 1 * (1 - t) + Vec3.mk 0.5 0.7 1 * t)

/-- Concrete test ray: origin at the camera origin, looking down `-z`. -/
def rayDown : Ray := ⟨⟨0, 0, 0⟩, ⟨0, 0, -1⟩⟩

/-- Concrete test ray looking straight up `+y`. -/
def rayUp : Ray := ⟨⟨0, 0, 0⟩, ⟨0, 1, 0⟩⟩

/-- A sphere like the source scene's, centered on the `-z` axis. -/
def sphereFar : Sphere := ⟨⟨0, 0, -10⟩, 4⟩

/-- A nearer sphere on the same axis, overlapping the far one's span. -/
def sphereNear : Sphere := ⟨⟨0, 0, -5⟩, 1⟩

/-- A sphere tangent to `rayDown` at `(0,0,-4)`, the same `t = 4` as
`sphereNear`. -/
def sphereTangent : Sphere := ⟨⟨1, 0, -4⟩, 1⟩

/-- A sphere tangent to `rayDown` at `(0,0,-6)`. -/
def sphereTangentFar : Sphere := ⟨⟨2, 0, -6⟩, 2⟩

/-- The hit record `rayDown` produces on `sphereFar`. -/
def hitFarRec : Hit := ⟨6, ⟨0, 0, -6⟩, ⟨0, 0, 1⟩, true⟩

/-- The hit record `rayDown` produces on `sphereNear`. -/
def hitNearRec : Hit := ⟨4, ⟨0, 0, -4⟩, ⟨0, 0, 1⟩, true⟩

/-- The hit record `rayDown` produces on `sphereTangent`. -/
def hitTangentRec : Hit := ⟨4, ⟨0, 0, -4⟩, ⟨1, 0, 0⟩, false⟩

/-- The hit record `rayDown` produces on `sphereTangentFar`. -/
def hitTangentFarRec : Hit := ⟨6, ⟨0, 0, -6⟩, ⟨1, 0, 0⟩, false⟩

/-- A constant bounce-direction stream. -/
def scat0 : ℕ → Vec3 := fun _ => ⟨0, 0, 0⟩

/-- A constant raw-generator stream whose first draw maps to the origin. -/
noncomputable def half_stream : ℕ → ℝ := fun _ => 1 / 2

namespace Vec3

/-- Equality of `Vec3` values is componentwise. -/
theorem eq_iff (a b : Vec3) : a = b ↔ a.x = b.x ∧ a.y = b.y ∧ a.z = b.z := by
  cases a
  cases b
  simp [Vec3.mk.injEq]

/-- Componentwise unfolding lemmas for the `Vec3` operations. -/
@[simp] theorem add_x (a b : Vec3) : (a + b).x = a.x + b.x := rfl

@[simp] theorem add_y (a b : Vec3) : (a + b).y = a.y + b.y := rfl

@[simp] theorem add_z (a b : Vec3) : (a + b).z = a.z + b.z := rfl

@[simp] theorem sub_x (a b : Vec3) : (a - b).x = a.x - b.x := rfl

@[simp] theorem sub_y (a b : Vec3) : (a - b).y = a.y - b.y := rfl

@[simp] theorem sub_z (a b : Vec3) : (a - b).z = a.z - b.z := rfl

@[simp] theorem mul_x (a : Vec3) (f : ℝ) : (a * f).x = a.x * f := rfl

@[simp] theorem mul_y (a : Vec3) (f : ℝ) : (a * f).y = a.y * f := rfl

@[simp] theorem mul_z (a : Vec3) (f : ℝ) : (a * f).z = a.z * f := rfl

@[simp] theorem div_x (a : Vec3) (f : ℝ) : (a / f).x = a.x / f := rfl

@[simp] theorem div_y (a : Vec3) (f : ℝ) : (a / f).y = a.y / f := rfl

@[simp] theorem div_z (a : Vec3) (f : ℝ) : (a / f).z = a.z / f := rfl

@[simp] theorem neg_x (a : Vec3) : (-a).x = -a.x := rfl

@[simp] theorem neg_y (a : Vec3) : (-a).y = -a.y := rfl

@[simp] theorem neg_z (a : Vec3) : (-a).z = -a.z := rfl

end Vec3

/-- Dotting against a negated vector negates the dot product. -/
theorem Vec3.dot_neg (a b : Vec3) : a.dot (-b) = -(a.dot b) := by
  simp [Vec3.dot]
  ring

/-- The quadratic coefficient `a` is a sum of squares, hence nonnegative. -/
theorem Sphere.aCoeff_nonneg (s : Sphere) (r : Ray) : 0 ≤ s.aCoeff r := by
  simp only [Sphere.aCoeff, Vec3.dot]
  nlinarith [sq_nonneg r.dir.x, sq_nonneg r.dir.y, sq_nonneg r.dir.z]

/-- If the quadratic coefficient `a` vanishes, the ray direction is zero. -/
theorem Sphere.dir_eq_zero_of_aCoeff_eq_zero (s : Sphere) (r : Ray)
    (h : s.aCoeff r = 0) : r.dir = ⟨0, 0, 0⟩ := by
  simp only [Sphere.aCoeff, Vec3.dot] at h
  have hx : r.dir.x = 0 := by nlinarith [sq_nonneg r.dir.x, sq_nonneg r.dir.y, sq_nonneg r.dir.z]
  have hy : r.dir.y = 0 := by nlinarith [sq_nonneg r.dir.x, sq_nonneg r.dir.y, sq_nonneg r.dir.z]
  have hz : r.dir.z = 0 := by nlinarith [sq_nonneg r.dir.x, sq_nonneg r.dir.y, sq_nonneg r.dir.z]
  rw [Vec3.eq_iff]
  exact ⟨hx, hy, hz⟩

/-- `Real.sqrt 16 = 4`, used to evaluate a concrete discriminant. -/
theorem sqrt_sixteen : Real.sqrt 16 = 4 := by
  rw [show (16 : ℝ) = 4 ^ 2 by norm_num]
  exact Real.sqrt_sq (by norm_num)

/-- Inversion for `Sphere.hit` in the `some` case. -/
theorem Sphere.hit_eq_some_iff (s : Sphere) (r : Ray) (h : Hit) :
    s.hit r = some h ↔
      ¬s.disc r < 0 ∧ ¬s.chosenRoot r < 0 ∧ h = s.hitRecord r (s.chosenRoot r) := by
  unfold Sphere.hit
  split_ifs with h1 h2 <;> simp_all [eq_comm]

/-- Inversion for `Sphere.hit` in the `none` case. -/
theorem Sphere.hit_eq_none_iff (s : Sphere) (r : Ray) :
    s.hit r = none ↔ s.disc r < 0 ∨ s.chosenRoot r < 0 := by
  unfold Sphere.hit
  split_ifs with h1 h2 <;> simp_all

/-- The `t` stored by `hitRecord` is the accepted root. -/
theorem Sphere.hitRecord_t (s : Sphere) (r : Ray) (root : ℝ) :
    (s.hitRecord r root).t = root := rfl

/-- The point stored by `hitRecord` is `ray.at root`. -/
theorem Sphere.hitRecord_p (s : Sphere) (r : Ray) (root : ℝ) :
    (s.hitRecord r root).p = r.at root := rfl

/-- The front flag stored by `hitRecord`. -/
theorem Sphere.hitRecord_front (s : Sphere) (r : Ray) (root : ℝ) :
    (s.hitRecord r root).front =
      (if r.dir.dot (s.outwardNormal r root) < 0 then true else false) := rfl

/-- The normal stored by `hitRecord` is the outward normal if `front`, else
its negation. -/
theorem Sphere.hitRecord_normal (s : Sphere) (r : Ray) (root : ℝ) :
    (s.hitRecord r root).normal =
      if (s.hitRecord r root).front = true then s.outwardNormal r root
      else -(s.outwardNormal r root) := by
  by_cases hc : r.dir.dot (s.outwardNormal r root) < 0 <;>
    simp [Sphere.hitRecord, hc]

/-- The incoming direction dotted with the outward normal, in terms of the
quadratic coefficients. -/
theorem Sphere.dot_dir_outwardNormal (s : Sphere) (r : Ray) (root : ℝ) :
    r.dir.dot (s.outwardNormal r root) = (s.halfB r + s.aCoeff r * root) / s.radius := by
  simp only [Sphere.outwardNormal, Sphere.halfB, Sphere.aCoeff, Ray.at, Vec3.dot,
    Vec3.div_x, Vec3.div_y, Vec3.div_z, Vec3.sub_x, Vec3.sub_y, Vec3.sub_z,
    Vec3.add_x, Vec3.add_y, Vec3.add_z, Vec3.mul_x, Vec3.mul_y, Vec3.mul_z]
  ring

/-- Concrete evaluation: `rayDown` hits `sphereFar` at `t = 6`. -/
theorem hit_far_eval : sphereFar.hit rayDown = some hitFarRec := by
  have hd : sphereFar.disc rayDown = 16 := by
    norm_num [Sphere.disc, Sphere.halfB, Sphere.aCoeff, Sphere.cCoeff, Vec3.dot,
      sphereFar, rayDown]
  have hr1 : sphereFar.root1 rayDown = 6 := by
    rw [Sphere.root1, hd, sqrt_sixteen]
    norm_num [Sphere.halfB, Sphere.aCoeff, Vec3.dot, sphereFar, rayDown]
  have hcr : sphereFar.chosenRoot rayDown = 6 := by
    rw [Sphere.chosenRoot, hr1]
    norm_num
  rw [Sphere.hit, hd, hcr]
  norm_num [Sphere.hitRecord, Sphere.outwardNormal, Ray.at, Vec3.dot, Vec3.eq_iff,
    hitFarRec, sphereFar, rayDown, Hit.mk.injEq]

/-- Concrete evaluation: `rayDown` hits `sphereNear` at `t = 4`. -/
theorem hit_near_eval : sphereNear.hit rayDown = some hitNearRec := by
  have hd : sphereNear.disc rayDown = 1 := by
    norm_num [Sphere.disc, Sphere.halfB, Sphere.aCoeff, Sphere.cCoeff, Vec3.dot,
      sphereNear, rayDown]
  have hr1 : sphereNear.root1 rayDown = 4 := by
    rw [Sphere.root1, hd, Real.sqrt_one]
    norm_num [Sphere.halfB, Sphere.aCoeff, Vec3.dot, sphereNear, rayDown]
  have hcr : sphereNear.chosenRoot rayDown = 4 := by
    rw [Sphere.chosenRoot, hr1]
    norm_num
  rw [Sphere.hit, hd, hcr]
  norm_num [Sphere.hitRecord, Sphere.outwardNormal, Ray.at, Vec3.dot, Vec3.eq_iff,
    hitNearRec, sphereNear, rayDown, Hit.mk.injEq]

/-- Concrete evaluation: `rayDown` grazes `sphereTangent` at `t = 4`, with
`front = false` and `normal = (1,0,0)` perpendicular to the ray. -/
theorem hit_tangent_eval : sphereTangent.hit rayDown = some hitTangentRec := by
  have hd : sphereTangent.disc rayDown = 0 := by
    norm_num [Sphere.disc, Sphere.halfB, Sphere.aCoeff, Sphere.cCoeff, Vec3.dot,
      sphereTangent, rayDown]
  have hr1 : sphereTangent.root1 rayDown = 4 := by
    rw [Sphere.root1, hd, Real.sqrt_zero]
    norm_num [Sphere.halfB, Sphere.aCoeff, Vec3.dot, sphereTangent, rayDown]
  have hcr : sphereTangent.chosenRoot rayDown = 4 := by
    rw [Sphere.chosenRoot, hr1]
    norm_num
  rw [Sphere.hit, hd, hcr]
  norm_num [Sphere.hitRecord, Sphere.outwardNormal, Ray.at, Vec3.dot, Vec3.eq_iff,
    hitTangentRec, sphereTangent, rayDown, Hit.mk.injEq]

/-- Concrete evaluation: `rayDown` grazes `sphereTangentFar` at `t = 6`, with
`front = false` although the ray origin is strictly outside the sphere. -/
theorem hit_tangent_far_eval : sphereTangentFar.hit rayDown = some hitTangentFarRec := by
  have hd : sphereTangentFar.disc rayDown = 0 := by
    norm_num [Sphere.disc, Sphere.halfB, Sphere.aCoeff, Sphere.cCoeff, Vec3.dot,
      sphereTangentFar, rayDown]
  have hr1 : sphereTangentFar.root1 rayDown = 6 := by
    rw [Sphere.root1, hd, Real.sqrt_zero]
    norm_num [Sphere.halfB, Sphere.aCoeff, Vec3.dot, sphereTangentFar, rayDown]
  have hcr : sphereTangentFar.chosenRoot rayDown = 6 := by
    rw [Sphere.chosenRoot, hr1]
    norm_num
  rw [Sphere.hit, hd, hcr]
  norm_num [Sphere.hitRecord, Sphere.outwardNormal, Ray.at, Vec3.dot, Vec3.eq_iff,
    hitTangentFarRec, sphereTangentFar, rayDown, Hit.mk.injEq]

/-- C1: whenever `Sphere::hit` returns `Hit(record)`, the accepted root
satisfies `record.t ≥ 0` and `record.t < +infinity` (every embedded real
value is finite, stated via `EReal`); and if neither the smaller nor the
larger root passes the valid-range check, the result is `Missed`. -/
theorem claim_C1 (s : Sphere) (r : Ray) :
    (∀ h : Hit, s.hit r = some h → 0 ≤ h.t ∧ (h.t : EReal) < ⊤) ∧
    (s.root1 r < 0 → s.root2 r < 0 → s.hit r = none) := by
  constructor
  · intro h hh
    rw [Sphere.hit_eq_some_iff] at hh
    obtain ⟨-, hroot, rfl⟩ := hh
    rw [Sphere.hitRecord_t]
    exact ⟨not_lt.mp hroot, EReal.coe_lt_top _⟩
  · intro h1 h2
    rw [Sphere.hit_eq_none_iff]
    right
    rw [Sphere.chosenRoot, if_pos h1]
    exact h2

/-- Witness for C1 at `sphereFar` hit by `rayDown` (`t = 6`). -/
theorem claim_C1_witness : 0 ≤ hitFarRec.t ∧ (hitFarRec.t : EReal) < ⊤ :=
  (claim_C1 sphereFar rayDown).1 hitFarRec hit_far_eval

/-- C6 counterexample: `rayDown` grazes `sphereTangent` tangentially; the
hit is returned with `dot(ray.dir, record.normal) = 0`, which is not `< 0`,
so the reported normal does not strictly oppose the ray direction. -/
theorem claim_C6_counterexample :
    sphereTangent.hit rayDown = some hitTangentRec ∧
    ¬rayDown.dir.dot hitTangentRec.normal < 0 := by
  refine ⟨hit_tangent_eval, ?_⟩
  norm_num [Vec3.dot, rayDown, hitTangentRec]

/-- C6 (amended): the stored normal is the outward normal `(p - center) /
radius` when the front flag is set and its negation otherwise, and the
reported normal never points with the incoming ray:
`dot(ray.dir, record.normal) ≤ 0`, with equality possible at tangency. -/
theorem claim_C6 (s : Sphere) (r : Ray) (h : Hit) (hh : s.hit r = some h) :
    h.normal =
      (if h.front = true then s.outwardNormal r h.t else -(s.outwardNormal r h.t)) ∧
    r.dir.dot h.normal ≤ 0 := by
  rw [Sphere.hit_eq_some_iff] at hh
  obtain ⟨-, -, rfl⟩ := hh
  rw [Sphere.hitRecord_t]
  refine ⟨Sphere.hitRecord_normal s r _, ?_⟩
  rw [Sphere.hitRecord_normal, Sphere.hitRecord_front]
  by_cases hc : r.dir.dot (s.outwardNormal r (s.chosenRoot r)) < 0
  · rw [if_pos hc]
    simp only [if_pos rfl]
    exact hc.le
  · rw [if_neg hc]
    simp only [Bool.false_eq_true, if_false, Vec3.dot_neg]
    linarith [not_lt.mp hc]

/-- Witness for C6 (amended) at `sphereFar` hit by `rayDown`. -/
theorem claim_C6_witness :
    hitFarRec.normal =
      (if hitFarRec.front = true then sphereFar.outwardNormal rayDown hitFarRec.t
       else -(sphereFar.outwardNormal rayDown hitFarRec.t)) ∧
    rayDown.dir.dot hitFarRec.normal ≤ 0 :=
  claim_C6 sphereFar rayDown hitFarRec hit_far_eval

/-- C7 counterexample: `rayDown`'s origin is strictly outside
`sphereTangentFar` (distance `√40 > 2`), yet the returned record has
`front = false`, refuting `front ↔ origin outside`. -/
theorem claim_C7_counterexample :
    sphereTangentFar.hit rayDown = some hitTangentFarRec ∧
    sphereTangentFar.radius < (rayDown.origin - sphereTangentFar.center).len ∧
    hitTangentFarRec.front = false := by
  refine ⟨hit_tangent_far_eval, ?_, rfl⟩
  have h40 : (rayDown.origin - sphereTangentFar.center).len2 = 40 := by
    norm_num [Vec3.len2, rayDown, sphereTangentFar]
  have h2 : (2 : ℝ) < Real.sqrt 40 := (Real.lt_sqrt (by norm_num)).mpr (by norm_num)
  show (2 : ℝ) < (rayDown.origin - sphereTangentFar.center).len
  rw [Vec3.len, h40]
  exact h2

/-- C7 (amended): for a positive-radius sphere, an origin strictly inside
the sphere always yields `front = false`, and `front = true` implies the
origin is outside or on the sphere (distance at least the radius).  The
biconditional of the claim fails only at grazing hits, where the origin can
be strictly outside with `front = false`. -/
theorem claim_C7 (s : Sphere) (r : Ray) (h : Hit) (hrad : 0 < s.radius)
    (hh : s.hit r = some h) :
    ((r.origin - s.center).len < s.radius → h.front = false) ∧
    (h.front = true → s.radius ≤ (r.origin - s.center).len) := by
  have main : (r.origin - s.center).len < s.radius → h.front = false := by
    intro hlen
    have hc : s.cCoeff r < 0 := by
      have h2 : (r.origin - s.center).len2 < s.radius ^ 2 := by
        have := (Real.sqrt_lt' hrad).mp hlen
        simpa [Vec3.len] using this
      simp only [Sphere.cCoeff]
      have hdself : (r.origin - s.center).dot (r.origin - s.center) =
          (r.origin - s.center).len2 := by
        simp [Vec3.dot, Vec3.len2]
      rw [hdself]
      nlinarith
    rw [Sphere.hit_eq_some_iff] at hh
    obtain ⟨hd, hroot, rfl⟩ := hh
    rw [Sphere.hitRecord_front]
    suffices hge : 0 ≤ r.dir.dot (s.outwardNormal r (s.chosenRoot r)) by
      rw [if_neg (not_lt.mpr hge)]
    rw [Sphere.dot_dir_outwardNormal]
    apply div_nonneg _ hrad.le
    rcases eq_or_lt_of_le (Sphere.aCoeff_nonneg s r) with ha | ha
    · have hdir := Sphere.dir_eq_zero_of_aCoeff_eq_zero s r ha.symm
      have hhb : s.halfB r = 0 := by simp [Sphere.halfB, hdir, Vec3.dot]
      rw [hhb, ← ha]
      norm_num
    · have hne : s.aCoeff r ≠ 0 := ne_of_gt ha
      have hdisc : s.halfB r * s.halfB r < s.disc r := by
        have hpos : 0 < s.aCoeff r * (-(s.cCoeff r)) := mul_pos ha (by linarith)
        simp only [Sphere.disc]
        nlinarith
      have hsq : |s.halfB r| < Real.sqrt (s.disc r) := by
        have h0 : Real.sqrt (s.halfB r * s.halfB r) < Real.sqrt (s.disc r) :=
          Real.sqrt_lt_sqrt (mul_self_nonneg _) hdisc
        rwa [Real.sqrt_mul_self_eq_abs] at h0
      have hr1neg : s.root1 r < 0 := by
        rw [Sphere.root1]
        apply div_neg_of_neg_of_pos _ ha
        have hle : -s.halfB r ≤ |s.halfB r| := neg_le_abs _
        linarith
      have hch : s.chosenRoot r = s.root2 r := by
        rw [Sphere.chosenRoot, if_pos hr1neg]
      have hval : s.halfB r + s.aCoeff r * s.root2 r = Real.sqrt (s.disc r) := by
        rw [Sphere.root2]
        field_simp
      rw [hch, hval]
      exact Real.sqrt_nonneg _
  refine ⟨main, ?_⟩
  intro hfront
  by_contra hlt
  push_neg at hlt
  have := main hlt
  rw [hfront] at this
  cases this

/-- The sphere loop yields no hit exactly when the accumulator was empty and
every sphere of the list misses. -/
theorem scene_hit_loop_none_iff (r : Ray) :
    ∀ (l : List Sphere) (acc : Option Hit),
      scene_hit_loop r l acc = none ↔ acc = none ∧ ∀ s ∈ l, s.hit r = none := by
  intro l
  induction l with
  | nil =>
    intro acc
    simp [scene_hit_loop]
  | cons s rest ih =>
    intro acc
    cases hs : s.hit r with
    | none =>
      simp only [scene_hit_loop, hs, ih, List.forall_mem_cons]
      simp [hs]
    | some hh0 =>
      cases acc with
      | none =>
        simp only [scene_hit_loop, hs, ih, List.forall_mem_cons]
        simp [hs]
      | some b =>
        simp only [scene_hit_loop, hs, ih, List.forall_mem_cons]
        split_ifs <;> simp [hs]

/-- Any hit the sphere loop returns either was the accumulator or comes from
a sphere of the list; it does not exceed the accumulator's `t`, nor the `t`
of any hit of the list. -/
theorem scene_hit_loop_min (r : Ray) :
    ∀ (l : List Sphere) (acc : Option Hit) (h : Hit),
      scene_hit_loop r l acc = some h →
        (acc = some h ∨ ∃ s ∈ l, s.hit r = some h) ∧
        (∀ b, acc = some b → h.t ≤ b.t) ∧
        (∀ s ∈ l, ∀ g, s.hit r = some g → h.t ≤ g.t) := by
  intro l
  induction l with
  | nil =>
    intro acc h hacc
    simp only [scene_hit_loop] at hacc
    refine ⟨Or.inl hacc, ?_, ?_⟩
    · intro b hb
      rw [hacc] at hb
      cases hb
      exact le_refl _
    · simp
  | cons s rest ih =>
    intro acc h hacc
    cases hs : s.hit r with
    | none =>
      simp only [scene_hit_loop, hs] at hacc
      obtain ⟨m1, m2, m3⟩ := ih acc h hacc
      refine ⟨?_, m2, ?_⟩
      · rcases m1 with h1 | ⟨x, hx, hxx⟩
        · exact Or.inl h1
        · exact Or.inr ⟨x, List.mem_cons_of_mem _ hx, hxx⟩
      · intro x hx g hg
        rcases List.mem_cons.mp hx with rfl | hx2
        · rw [hs] at hg
          cases hg
        · exact m3 x hx2 g hg
    | some hh0 =>
      cases acc with
      | none =>
        simp only [scene_hit_loop, hs] at hacc
        obtain ⟨m1, m2, m3⟩ := ih (some hh0) h hacc
        refine ⟨?_, ?_, ?_⟩
        · rcases m1 with h1 | ⟨x, hx, hxx⟩
          · injection h1 with h1e
            exact Or.inr ⟨s, List.mem_cons_self _ _, by rw [hs, h1e]⟩
          · exact Or.inr ⟨x, List.mem_cons_of_mem _ hx, hxx⟩
        · intro b hb
          cases hb
        · intro x hx g hg
          rcases List.mem_cons.mp hx with rfl | hx2
          · rw [hs] at hg
            injection hg with hge
            rw [← hge]
            exact m2 hh0 rfl
          · exact m3 x hx2 g hg
      | some b =>
        simp only [scene_hit_loop, hs] at hacc
        by_cases hcmp : hh0.t < b.t
        · rw [if_pos hcmp] at hacc
          obtain ⟨m1, m2, m3⟩ := ih (some hh0) h hacc
          refine ⟨?_, ?_, ?_⟩
          · rcases m1 with h1 | ⟨x, hx, hxx⟩
            · injection h1 with h1e
              exact Or.inr ⟨s, List.mem_cons_self _ _, by rw [hs, h1e]⟩
            · exact Or.inr ⟨x, List.mem_cons_of_mem _ hx, hxx⟩
          · intro b2 hb2
            injection hb2 with hbe
            have hle := m2 hh0 rfl
            rw [← hbe]
            linarith
          · intro x hx g hg
            rcases List.mem_cons.mp hx with rfl | hx2
            · rw [hs] at hg
              injection hg with hge
              rw [← hge]
              exact m2 hh0 rfl
            · exact m3 x hx2 g hg
        · rw [if_neg hcmp] at hacc
          obtain ⟨m1, m2, m3⟩ := ih (some b) h hacc
          refine ⟨?_, ?_, ?_⟩
          · rcases m1 with h1 | ⟨x, hx, hxx⟩
            · exact Or.inl h1
            · exact Or.inr ⟨x, List.mem_cons_of_mem _ hx, hxx⟩
          · intro b2 hb2
            injection hb2 with hbe
            rw [← hbe]
            exact m2 b rfl
          · intro x hx g hg
            rcases List.mem_cons.mp hx with rfl | hx2
            · rw [hs] at hg
              injection hg with hge
              have hle := m2 b rfl
              have hble := not_lt.mp hcmp
              rw [← hge]
              linarith
            · exact m3 x hx2 g hg

/-- First-seen tie-breaking: any hit the loop returns that did not come in
through the accumulator originates at some index `i` of the list, strictly
beats the accumulator, and strictly beats every hit of an earlier index
(an equal `t` never displaces the stored hit, the comparison being strict). -/
theorem scene_hit_loop_first (r : Ray) :
    ∀ (l : List Sphere) (acc : Option Hit) (h : Hit),
      scene_hit_loop r l acc = some h →
        acc = some h ∨
        ∃ i, ∃ hi : i < l.length,
          (l.get ⟨i, hi⟩).hit r = some h ∧
          (∀ b, acc = some b → h.t < b.t) ∧
          ∀ j, ∀ hj : j < l.length, j < i →
            ∀ g, (l.get ⟨j, hj⟩).hit r = some g → h.t < g.t := by
  intro l
  induction l with
  | nil =>
    intro acc h hacc
    simp only [scene_hit_loop] at hacc
    exact Or.inl hacc
  | cons s rest ih =>
    intro acc h hacc
    cases hs : s.hit r with
    | none =>
      simp only [scene_hit_loop, hs] at hacc
      rcases ih acc h hacc with h1 | ⟨i, hi, hget, haccs, hearly⟩
      · exact Or.inl h1
      · refine Or.inr ⟨i + 1, Nat.succ_lt_succ hi, hget, haccs, ?_⟩
        intro j hj hji g hg
        cases j with
        | zero =>
          rw [show (s :: rest).get ⟨0, hj⟩ = s from rfl, hs] at hg
          cases hg
        | succ j2 =>
          exact hearly j2 (Nat.lt_of_succ_lt_succ hj) (Nat.lt_of_succ_lt_succ hji) g hg
    | some hh0 =>
      cases acc with
      | none =>
        simp only [scene_hit_loop, hs] at hacc
        rcases ih (some hh0) h hacc with h1 | ⟨i, hi, hget, haccs, hearly⟩
        · injection h1 with h1e
          refine Or.inr ⟨0, Nat.succ_pos _, ?_, ?_, ?_⟩
          · rw [show (s :: rest).get ⟨0, Nat.succ_pos _⟩ = s from rfl, hs, h1e]
          · intro b hb
            cases hb
          · intro j hj hji g hg
            exact absurd hji (Nat.not_lt_zero j)
        · refine Or.inr ⟨i + 1, Nat.succ_lt_succ hi, hget, ?_, ?_⟩
          · intro b hb
            cases hb
          · intro j hj hji g hg
            cases j with
            | zero =>
              rw [show (s :: rest).get ⟨0, hj⟩ = s from rfl, hs] at hg
              injection hg with hge
              rw [← hge]
              exact haccs hh0 rfl
            | succ j2 =>
              exact hearly j2 (Nat.lt_of_succ_lt_succ hj) (Nat.lt_of_succ_lt_succ hji) g hg
      | some b =>
        simp only [scene_hit_loop, hs] at hacc
        by_cases hcmp : hh0.t < b.t
        · rw [if_pos hcmp] at hacc
          rcases ih (some hh0) h hacc with h1 | ⟨i, hi, hget, haccs, hearly⟩
          · injection h1 with h1e
            refine Or.inr ⟨0, Nat.succ_pos _, ?_, ?_, ?_⟩
            · rw [show (s :: rest).get ⟨0, Nat.succ_pos _⟩ = s from rfl, hs, h1e]
            · intro b2 hb2
              injection hb2 with hbe
              rw [← hbe, ← h1e]
              exact hcmp
            · intro j hj hji g hg
              exact absurd hji (Nat.not_lt_zero j)
          · refine Or.inr ⟨i + 1, Nat.succ_lt_succ hi, hget, ?_, ?_⟩
            · intro b2 hb2
              injection hb2 with hbe
              have hlt := haccs hh0 rfl
              rw [← hbe]
              linarith
            · intro j hj hji g hg
              cases j with
              | zero =>
                rw [show (s :: rest).get ⟨0, hj⟩ = s from rfl, hs] at hg
                injection hg with hge
                rw [← hge]
                exact haccs hh0 rfl
              | succ j2 =>
                exact hearly j2 (Nat.lt_of_succ_lt_succ hj) (Nat.lt_of_succ_lt_succ hji) g hg
        · rw [if_neg hcmp] at hacc
          rcases ih (some b) h hacc with h1 | ⟨i, hi, hget, haccs, hearly⟩
          · exact Or.inl h1
          · refine Or.inr ⟨i + 1, Nat.succ_lt_succ hi, hget, ?_, ?_⟩
            · intro b2 hb2
              injection hb2 with hbe
              rw [← hbe]
              exact haccs b rfl
            · intro j hj hji g hg
              cases j with
              | zero =>
                rw [show (s :: rest).get ⟨0, hj⟩ = s from rfl, hs] at hg
                injection hg with hge
                have hlt := haccs b rfl
                have hble := not_lt.mp hcmp
                rw [← hge]
                linarith
              | succ j2 =>
                exact hearly j2 (Nat.lt_of_succ_lt_succ hj) (Nat.lt_of_succ_lt_succ hji) g hg

/-- `sceneHit` misses exactly when every sphere of the scene misses. -/
theorem sceneHit_none_iff (r : Ray) (l : List Sphere) :
    sceneHit r l = none ↔ ∀ s ∈ l, s.hit r = none := by
  rw [sceneHit, scene_hit_loop_none_iff]
  simp

/-- A hit returned by `sceneHit` comes from a sphere of the scene and has
minimal `t` among all hits of the scene. -/
theorem sceneHit_min (r : Ray) (l : List Sphere) (h : Hit)
    (hh : sceneHit r l = some h) :
    (∃ s ∈ l, s.hit r = some h) ∧ ∀ s ∈ l, ∀ g, s.hit r = some g → h.t ≤ g.t := by
  rw [sceneHit] at hh
  obtain ⟨m1, -, m3⟩ := scene_hit_loop_min r l none h hh
  rcases m1 with h1 | h1
  · cases h1
  · exact ⟨h1, m3⟩

/-- Concrete evaluation: with the far sphere listed first, `sceneHit` picks
the near sphere's hit (`t = 4 < 6`). -/
theorem scene_far_near_eval :
    sceneHit rayDown [sphereFar, sphereNear] = some hitNearRec := by
  simp only [sceneHit, scene_hit_loop, hit_far_eval, hit_near_eval]
  norm_num [hitNearRec, hitFarRec]

/-- Concrete evaluation: with the near sphere listed first, `sceneHit` still
picks the near sphere's hit. -/
theorem scene_near_far_eval :
    sceneHit rayDown [sphereNear, sphereFar] = some hitNearRec := by
  simp only [sceneHit, scene_hit_loop, hit_far_eval, hit_near_eval]
  norm_num [hitNearRec, hitFarRec]

/-- Concrete evaluation: at an exact `t`-tie, the first-listed sphere wins
(`sphereNear` first). -/
theorem scene_near_tangent_eval :
    sceneHit rayDown [sphereNear, sphereTangent] = some hitNearRec := by
  simp only [sceneHit, scene_hit_loop, hit_near_eval, hit_tangent_eval]
  norm_num [hitNearRec, hitTangentRec]

/-- Concrete evaluation: at an exact `t`-tie, the first-listed sphere wins
(`sphereTangent` first). -/
theorem scene_tangent_near_eval :
    sceneHit rayDown [sphereTangent, sphereNear] = some hitTangentRec := by
  simp only [sceneHit, scene_hit_loop, hit_near_eval, hit_tangent_eval]
  norm_num [hitNearRec, hitTangentRec]

/-- C3: the scene resolution returns `Missed` exactly when every sphere
misses; a returned hit has globally minimal `t` among all sphere hits and
originates at an index every earlier index of which carries only strictly
larger hits (ties broken by iteration order, first seen wins). -/
theorem claim_C3 (r : Ray) (l : List Sphere) :
    (sceneHit r l = none ↔ ∀ s ∈ l, s.hit r = none) ∧
    (∀ h, sceneHit r l = some h →
      (∀ s ∈ l, ∀ g, s.hit r = some g → h.t ≤ g.t) ∧
      ∃ i, ∃ hi : i < l.length,
        (l.get ⟨i, hi⟩).hit r = some h ∧
        ∀ j, ∀ hj : j < l.length, j < i →
          ∀ g, (l.get ⟨j, hj⟩).hit r = some g → h.t < g.t) := by
  refine ⟨sceneHit_none_iff r l, ?_⟩
  intro h hh
  have hmin := (sceneHit_min r l h hh).2
  rw [sceneHit] at hh
  rcases scene_hit_loop_first r l none h hh with h1 | ⟨i, hi, hget, -, hearly⟩
  · cases h1
  · exact ⟨hmin, i, hi, hget, hearly⟩

/-- Witness for C3: in the two-overlapping-sphere scene, the returned hit is
the near one and its `t` is at most the far sphere's `t`. -/
theorem claim_C3_witness : hitNearRec.t ≤ hitFarRec.t :=
  ((claim_C3 rayDown [sphereFar, sphereNear]).2 hitNearRec scene_far_near_eval).1
    sphereFar (by simp) hitFarRec hit_far_eval

/-- C5 counterexample: `sphereNear` and `sphereTangent` both hit `rayDown`
at `t = 4` with different records; swapping the two spheres changes the hit
record `sceneHit` returns. -/
theorem claim_C5_counterexample :
    List.Perm [sphereNear, sphereTangent] [sphereTangent, sphereNear] ∧
    sceneHit rayDown [sphereNear, sphereTangent] ≠
      sceneHit rayDown [sphereTangent, sphereNear] := by
  refine ⟨List.Perm.swap _ _ _, ?_⟩
  rw [scene_near_tangent_eval, scene_tangent_near_eval]
  simp [hitNearRec, hitTangentRec, Hit.mk.injEq]

/-- C5 (amended): permuting the sphere list never changes whether the
result is `Missed` nor the `t` of the chosen hit; and whenever no two
spheres of the scene produce hits with the same minimal `t` but different
records, the full chosen hit record is also invariant under permutation
(at such a tie the record depends on iteration order, as the
counterexample shows). -/
theorem claim_C5 (r : Ray) (l l2 : List Sphere) (hp : l.Perm l2) :
    Option.map Hit.t (sceneHit r l) = Option.map Hit.t (sceneHit r l2) ∧
    ((∀ s ∈ l, ∀ s2 ∈ l, ∀ g g2, s.hit r = some g → s2.hit r = some g2 →
        g.t = g2.t → (∀ s3 ∈ l, ∀ g3, s3.hit r = some g3 → g.t ≤ g3.t) → g = g2) →
      sceneHit r l = sceneHit r l2) := by
  have hmap : Option.map Hit.t (sceneHit r l) = Option.map Hit.t (sceneHit r l2) := by
    cases e1 : sceneHit r l with
    | none =>
      cases e2 : sceneHit r l2 with
      | none => rfl
      | some g =>
        obtain ⟨⟨x, hx, hxx⟩, -⟩ := sceneHit_min r l2 g e2
        have hmiss := (sceneHit_none_iff r l).mp e1 x (hp.mem_iff.mpr hx)
        rw [hmiss] at hxx
        cases hxx
    | some h =>
      cases e2 : sceneHit r l2 with
      | none =>
        obtain ⟨⟨x, hx, hxx⟩, -⟩ := sceneHit_min r l h e1
        have hmiss := (sceneHit_none_iff r l2).mp e2 x (hp.mem_iff.mp hx)
        rw [hmiss] at hxx
        cases hxx
      | some g =>
        obtain ⟨⟨x, hx, hxx⟩, hmin⟩ := sceneHit_min r l h e1
        obtain ⟨⟨x2, hx2, hxx2⟩, hmin2⟩ := sceneHit_min r l2 g e2
        have hle1 : h.t ≤ g.t := hmin x2 (hp.mem_iff.mpr hx2) g hxx2
        have hle2 : g.t ≤ h.t := hmin2 x (hp.mem_iff.mp hx) h hxx
        simp only [Option.map_some']
        exact congrArg some (le_antisymm hle1 hle2)
  refine ⟨hmap, ?_⟩
  intro hnotie
  cases e1 : sceneHit r l with
  | none =>
    cases e2 : sceneHit r l2 with
    | none => rfl
    | some g =>
      rw [e1, e2] at hmap
      simp at hmap
  | some h =>
    cases e2 : sceneHit r l2 with
    | none =>
      rw [e1, e2] at hmap
      simp at hmap
    | some g =>
      rw [e1, e2] at hmap
      simp only [Option.map_some'] at hmap
      have hteq : h.t = g.t := Option.some.inj hmap
      obtain ⟨⟨x, hx, hxx⟩, hmin⟩ := sceneHit_min r l h e1
      obtain ⟨⟨x2, hx2, hxx2⟩, -⟩ := sceneHit_min r l2 g e2
      exact congrArg some
        (hnotie x hx x2 (hp.mem_iff.mpr hx2) h g hxx hxx2 hteq hmin)

/-- Witness for C5 (amended) on a concrete swap of two overlapping,
non-tying spheres: both the `t`-invariance and the full-record invariance
are obtained from the theorem. -/
theorem claim_C5_witness :
    Option.map Hit.t (sceneHit rayDown [sphereFar, sphereNear]) =
      Option.map Hit.t (sceneHit rayDown [sphereNear, sphereFar]) ∧
    sceneHit rayDown [sphereFar, sphereNear] =
      sceneHit rayDown [sphereNear, sphereFar] := by
  have h := claim_C5 rayDown [sphereFar, sphereNear] [sphereNear, sphereFar]
    (List.Perm.swap _ _ _)
  refine ⟨h.1, h.2 ?_⟩
  intro s hs s2 hs2 g g2 hg hg2 hteq _
  simp only [List.mem_cons, List.not_mem_nil, or_false] at hs hs2
  rcases hs with rfl | rfl <;> rcases hs2 with rfl | rfl
  · rw [hit_far_eval] at hg hg2
    rw [← Option.some.inj hg, ← Option.some.inj hg2]
  · rw [hit_far_eval] at hg
    rw [hit_near_eval] at hg2
    rw [← Option.some.inj hg, ← Option.some.inj hg2] at hteq
    norm_num [hitFarRec, hitNearRec] at hteq
  · rw [hit_near_eval] at hg
    rw [hit_far_eval] at hg2
    rw [← Option.some.inj hg, ← Option.some.inj hg2] at hteq
    norm_num [hitFarRec, hitNearRec] at hteq
  · rw [hit_near_eval] at hg hg2
    rw [← Option.some.inj hg, ← Option.some.inj hg2]

/-- Concrete evaluation: the single-sphere scene returns the far hit. -/
theorem scene_single_eval : sceneHit rayDown [sphereFar] = some hitFarRec := by
  simp only [sceneHit, scene_hit_loop, hit_far_eval]

/-- C2: the integrator returns black `(0,0,0)` whenever `depth ≤ 0`; when
`depth > 0` and the scene yields a nearest hit `h`, it returns `0.5` times
the recursive color at `depth - 1` of the ray from `h.p` toward
`h.p + h.normal + random_point_in_unit_sphere()` (the sampler's draw is the
head of the `scat` stream, shifted for the recursive call). -/
theorem claim_C2 (scat : ℕ → Vec3) (r : Ray) (l : List Sphere) (depth : ℤ) :
    (depth ≤ 0 → ray_color scat r l depth = ⟨0, 0, 0⟩) ∧
    (0 < depth → ∀ h, sceneHit r l = some h →
      ray_color scat r l depth =
        ray_color (fun n => scat (n + 1)) ⟨h.p, (h.p + h.normal + scat 0) - h.p⟩ l
          (depth - 1) * (0.5 : ℝ)) := by
  constructor
  · intro hd
    rw [ray_color]
    simp [hd]
  · intro hd h hh
    conv_lhs => rw [ray_color]
    simp [not_le.mpr hd, hh]

/-- Witness for C2 at depth `0` and depth `1` over the single-sphere scene. -/
theorem claim_C2_witness :
    ray_color scat0 rayDown [sphereFar] 0 = ⟨0, 0, 0⟩ ∧
    ray_color scat0 rayDown [sphereFar] 1 =
      ray_color (fun n => scat0 (n + 1))
        ⟨hitFarRec.p, (hitFarRec.p + hitFarRec.normal + scat0 0) - hitFarRec.p⟩
        [sphereFar] 0 * (0.5 : ℝ) :=
  ⟨(claim_C2 scat0 rayDown [sphereFar] 0).1 (by norm_num),
   (claim_C2 scat0 rayDown [sphereFar] 1).2 (by norm_num) hitFarRec scene_single_eval⟩

/-- C8: when the scene yields no hit and `depth > 0`, the integrator returns
the background gradient `white*(1-t) + sky_blue*t` with
`t = 0.5 * (unit_direction.y + 1.0)` and `sky_blue = (0.5, 0.7, 1.0)`. -/
theorem claim_C8 (scat : ℕ → Vec3) (r : Ray) (l : List Sphere) (depth : ℤ)
    (hd : 0 < depth) (hm : sceneHit r l = none) :
    ray_color scat r l depth =
      Vec3.mk 1 1 1 * (1 - 0.5 * ((unit_vector r.dir).y + 1.0)) +
        Vec3.mk 0.5 0.7 1 * (0.5 * ((unit_vector r.dir).y + 1.0)) := by
  conv_lhs => rw [ray_color]
  simp [not_le.mpr hd, hm]

/-- Witness for C8: a ray with direction `(0,1,0)` against the empty scene
returns exactly the sky color `(0.5, 0.7, 1.0)`. -/
theorem claim_C8_witness : ray_color scat0 rayUp [] 1 = ⟨0.5, 0.7, 1⟩ := by
  rw [claim_C8 scat0 rayUp [] 1 (by norm_num) rfl]
  have hlen : (Vec3.mk 0 1 0).len = 1 := by
    rw [Vec3.len, show (Vec3.mk 0 1 0).len2 = 1 by norm_num [Vec3.len2]]
    exact Real.sqrt_one
  norm_num [unit_vector, hlen, rayUp, Vec3.eq_iff]

/-- Auxiliary to C10: any gas budget strictly above `depth.toNat` suffices
for the instrumented integrator, which then agrees with `ray_color`. -/
theorem ray_color_gas_complete :
    ∀ (gas : ℕ) (scat : ℕ → Vec3) (r : Ray) (l : List Sphere) (depth : ℤ),
      depth.toNat < gas →
        ray_color_gas scat r l depth gas = some (ray_color scat r l depth) := by
  intro gas
  induction gas with
  | zero =>
    intro scat r l depth h
    exact absurd h (Nat.not_lt_zero _)
  | succ gas ih =>
    intro scat r l depth h
    simp only [ray_color_gas]
    conv_rhs => rw [ray_color]
    by_cases hd : depth ≤ 0
    · simp [hd]
    · simp only [hd, if_false]
      cases hs : sceneHit r l with
      | some hh =>
        simp only []
        rw [ih _ _ _ _ (by omega)]
        simp
      | none => simp

/-- C10: under the hypothesis that every sampler call returns a value (the
`scat` stream), the recursion of `ray_color` is well-founded on `depth`:
the instrumented integrator already terminates within `depth.toNat + 1`
call frames, for every ray, scene and integer depth. -/
theorem claim_C10 (scat : ℕ → Vec3) (r : Ray) (l : List Sphere) (depth : ℤ) :
    ray_color_gas scat r l depth (depth.toNat + 1) = some (ray_color scat r l depth) :=
  ray_color_gas_complete (depth.toNat + 1) scat r l depth (Nat.lt_succ_self _)

/-- `clip` lands in `[lo, hi]` whenever `lo ≤ hi`. -/
theorem clip_mem (v lo hi : ℝ) (hle : lo ≤ hi) :
    lo ≤ clip v lo hi ∧ clip v lo hi ≤ hi := by
  rw [clip]
  split_ifs <;> constructor <;> linarith

/-- On finite arguments, `clipF` agrees with the real-valued `clip`. -/
theorem clipF_finite (a lo hi : ℝ) :
    clipF (F32.finite a) (F32.finite lo) (F32.finite hi) = F32.finite (clip a lo hi) := by
  simp only [clipF, clip, F32.lt]
  by_cases h1 : hi < a
  · simp [h1]
  · by_cases h2 : a < lo
    · simp [h1, h2]
    · simp [h1, h2]

/-- A `NaN` channel value passes through both `clip` guards unchanged. -/
theorem clipF_nan (lo hi : F32) : clipF F32.nan lo hi = F32.nan := by
  cases lo <;> cases hi <;> simp [clipF, F32.lt]

/-- `+∞` is clipped to the upper bound. -/
theorem clipF_posInf (lo : F32) (hi : ℝ) :
    clipF F32.posInf lo (F32.finite hi) = F32.finite hi := by
  simp [clipF, F32.lt]

/-- `-∞` is clipped to the lower bound. -/
theorem clipF_negInf (lo hi : ℝ) :
    clipF F32.negInf (F32.finite lo) (F32.finite hi) = F32.finite lo := by
  simp [clipF, F32.lt]

/-- Multiplying a finite f32 value by a real scalar. -/
theorem F32.mulReal_finite (x s : ℝ) : (F32.finite x).mulReal s = F32.finite (x * s) := rfl

/-- `+∞` times a positive scalar stays `+∞`. -/
theorem F32.mulReal_posInf (s : ℝ) (hs : 0 < s) : F32.posInf.mulReal s = F32.posInf := by
  simp [F32.mulReal, hs]

/-- `-∞` times a positive scalar stays `-∞`. -/
theorem F32.mulReal_negInf (s : ℝ) (hs : 0 < s) : F32.negInf.mulReal s = F32.negInf := by
  simp [F32.mulReal, hs]

/-- The truncating integer value of `⌊0.999 * 255⌋ = ⌊254.745⌋`. -/
theorem floor_254 : ⌊(0.999 : ℝ) * 255⌋ = 254 := by
  rw [show ((0.999 : ℝ) * 255) = 254.745 by norm_num, Int.floor_eq_iff]
  norm_num

/-- Casting `c * 255` for a clipped finite channel `c ∈ [0, 0.999]` lands in
`[0, 254]`. -/
theorem f32_as_i32_mul_mem (c : ℝ) (h0 : 0 ≤ c) (h1 : c ≤ 0.999) :
    0 ≤ f32_as_i32 ((F32.finite c).mulReal 255) ∧
      f32_as_i32 ((F32.finite c).mulReal 255) ≤ 254 := by
  rw [F32.mulReal_finite]
  simp only [f32_as_i32]
  rw [if_pos (by nlinarith)]
  have hf0 : (0 : ℤ) ≤ ⌊c * 255⌋ := Int.le_floor.mpr (by push_cast; nlinarith)
  have hfl : ⌊c * 255⌋ < 255 := Int.floor_lt.mpr (by push_cast; nlinarith)
  constructor
  · exact (le_min (by norm_num) hf0).trans (le_max_right _ _)
  · exact max_le (by norm_num) ((min_le_right _ _).trans (by omega))

/-- C4: for every accumulated channel value over the full f32 domain
(finite, `NaN` or an infinity) and every positive `samples_per_pixel`, the
emitted integer — `clip(value * scale, 0, 0.999)` times `255`, cast with
the truncating, saturating `as i32` — lies in `[0, 254]`; in particular the
accumulated sum `(2,2,2)` over `2` samples emits `254 254 254`. -/
theorem claim_C4 :
    (∀ (v : F32) (spp : ℤ), 0 < spp →
      0 ≤ write_color_channel v spp ∧ write_color_channel v spp ≤ 254) ∧
    write_color ⟨F32.finite 2, F32.finite 2, F32.finite 2⟩ 2 = (254, 254, 254) := by
  constructor
  · intro v spp hspp
    have hs : 0 < 1 / ((spp : ℤ) : ℝ) := by
      apply one_div_pos.mpr
      exact_mod_cast hspp
    cases v with
    | finite x =>
      rw [write_color_channel, F32.mulReal_finite, clipF_finite]
      obtain ⟨h0, h1⟩ := clip_mem (x * (1 / ((spp : ℤ) : ℝ))) 0 0.999 (by norm_num)
      exact f32_as_i32_mul_mem _ h0 h1
    | nan =>
      rw [write_color_channel,
        show F32.nan.mulReal (1 / ((spp : ℤ) : ℝ)) = F32.nan from rfl, clipF_nan,
        show F32.nan.mulReal 255 = F32.nan from rfl]
      norm_num [f32_as_i32]
    | posInf =>
      rw [write_color_channel, F32.mulReal_posInf _ hs, clipF_posInf]
      exact f32_as_i32_mul_mem 0.999 (by norm_num) le_rfl
    | negInf =>
      rw [write_color_channel, F32.mulReal_negInf _ hs, clipF_negInf]
      exact f32_as_i32_mul_mem 0 le_rfl (by norm_num)
  · have hch : write_color_channel (F32.finite 2) 2 = 254 := by
      rw [write_color_channel, F32.mulReal_finite, clipF_finite,
        show clip (2 * (1 / ((2 : ℤ) : ℝ))) 0 0.999 = 0.999 from by norm_num [clip],
        F32.mulReal_finite]
      simp only [f32_as_i32]
      rw [if_pos (by norm_num), floor_254]
      omega
    simp [write_color, hch]

/-- Witness for C4 at a non-finite channel value (`NaN`) with `2` samples
per pixel. -/
theorem claim_C4_witness :
    0 ≤ write_color_channel F32.nan 2 ∧ write_color_channel F32.nan 2 ≤ 254 :=
  claim_C4.1 F32.nan 2 (by norm_num)

/-- C9: every vector `random_in_unit_sphere` returns satisfies
`squared_length < 1`, for every raw-generator stream and fuel budget. -/
theorem claim_C9 (u : ℕ → ℝ) (fuel : ℕ) (p : Vec3)
    (h : random_in_unit_sphere u fuel = some p) : p.len2 < 1 := by
  induction fuel generalizing u with
  | zero => simp [random_in_unit_sphere] at h
  | succ fuel ih =>
    simp only [random_in_unit_sphere] at h
    by_cases hc : 1 ≤ (Vec3.random (-1) 1 (u 0) (u 1) (u 2)).len2
    · rw [if_pos hc] at h
      exact ih _ h
    · rw [if_neg hc] at h
      injection h with he
      rw [← he]
      exact not_le.mp hc

/-- Witness for C9: the all-halves stream is accepted on the first draw,
yielding the origin, whose squared length is below `1`. -/
theorem claim_C9_witness : (Vec3.mk 0 0 0).len2 < 1 := by
  have he : random_in_unit_sphere half_stream 1 = some ⟨0, 0, 0⟩ := by
    simp only [random_in_unit_sphere, Vec3.random, random_double, half_stream]
    norm_num [Vec3.len2, Vec3.eq_iff]
  exact claim_C9 half_stream 1 _ he

/-- Witness for C7 (amended): the front-facing far-sphere hit has its ray
origin at distance at least the radius from the center. -/
theorem claim_C7_witness :
    sphereFar.radius ≤ (rayDown.origin - sphereFar.center).len :=
  (claim_C7 sphereFar rayDown hitFarRec (by norm_num [sphereFar]) hit_far_eval).2 rfl
